import Mathlib

/-!
Verification development for the pitch-accent / furigana resolution engine
of reading.py (lookup engine, formatter, furigana composer).

Strings are modelled as lists of characters (`Str`).  Functions defined in
reading.py are translated directly.  Collaborators that reading.py imports
from modules outside the provided sources (the morphological analyzer, the
tokenizer, the html sanitizer, the reading-merge helper, the reading
normalizer, the conjugation aligner, blocklists and configuration) are
modelled as fields of an explicit context `Ctx`, or, where the spec pins
down their behaviour, as concrete definitions marked `Modelled from the
spec`.
-/

/-- Character-list model of Python strings. -/
abbrev Str := List Char

/-- One pronunciation entry of the accent dictionary (database.FormattedEntry):
a katakana reading, a pitch number and a pre-rendered pitch-pattern html
field (html_pattern here renders the html field of the source record). -/
structure FormattedEntry where
  katakana_reading : Str
  pitch_number : Str
  html_pattern : Str
deriving DecidableEq

/-- Ordered mapping from expression to its pronunciation entries, modelled as
an association list with insertion order preserved (Python OrderedDict). -/
abbrev AccentDict := List (Str × List FormattedEntry)

/-- One token produced by the morphological analyzer (reading.ParsedToken).
An absent katakana reading is modelled by the empty string, matching Python
truthiness checks on the field. -/
structure ParsedToken where
  word : Str
  katakana_reading : Str
  headword : Str
deriving DecidableEq

/-- Output mode of a generation task (profiles.TaskMode). -/
inductive TaskMode where
  | html
  | number
  | furigana
deriving DecidableEq

/-- A span produced by the tokenizer: parseable text (helpers.tokens
ParseableToken) or a literal span passed through verbatim. -/
inductive Span where
  | parseable (s : Str)
  | literal (s : Str)
deriving DecidableEq

/-- Modelled from the spec: str.isnumeric on the explicit reading; a purely
numeric nonempty string. -/
def pyIsNumeric (s : Str) : Bool :=
  s ≠ [] && s.all Char.isDigit

/-- One step of the bracket-splitting scan of `word_reading`: outside
brackets characters go to the word, inside brackets to the reading. -/
def wrStep : Bool × Str × Str → Char → Bool × Str × Str
  | (false, w, r), c => if c = '[' then (true, w, r) else (false, w ++ [c], r)
  | (true, w, r), c => if c = ']' then (false, w, r) else (true, w, r ++ [c])

/-- Modelled from the spec (helpers.mingle_readings.word_reading is not among
the provided sources): split an expression that carries an explicit reading
in bracket furigana notation into the bare expression and the reading.
Bracketed groups are removed from the word and collected as the reading; an
expression with no bracket notation is returned unchanged with an empty
reading. -/
def word_reading (l : Str) : Str × Str :=
  let s := l.foldl wrStep (false, [], [])
  (s.2.1, s.2.2)

/-- Modelled from the spec (helpers.tokens.split_separators is not among the
provided sources): split the expression on separator punctuation, the class
of separator characters being given by the predicate. -/
def split_separators (p : Char → Bool) : Str → List Str
  | [] => [[]]
  | c :: rest =>
    if p c then [] :: split_separators p rest
    else
      match split_separators p rest with
      | s :: ss => (c :: s) :: ss
      | [] => [[c]]

/-- Modelled from the spec (mecab_controller kana conversion is not among the
provided sources): katakana-normalize one character by shifting the hiragana
block onto the katakana block. -/
def katakanizeChar (c : Char) : Char :=
  if 0x3041 ≤ c.toNat ∧ c.toNat ≤ 0x3096 then Char.ofNat (c.toNat + 0x60) else c

/-- Modelled from the spec: katakana-normalize a string characterwise. -/
def to_katakana (l : Str) : Str :=
  l.map katakanizeChar

/-- Modelled from the spec: convert one katakana character to hiragana. -/
def hiraganizeChar (c : Char) : Char :=
  if 0x30A1 ≤ c.toNat ∧ c.toNat ≤ 0x30F6 then Char.ofNat (c.toNat - 0x60) else c

/-- Modelled from the spec: convert a string to hiragana characterwise. -/
def to_hiragana (l : Str) : Str :=
  l.map hiraganizeChar

/-- Modelled from the spec (mecab_controller.is_kana_word is not among the
provided sources): a word consisting only of kana characters. -/
def is_kana_word (l : Str) : Bool :=
  l.all (fun c => 0x3040 ≤ c.toNat && c.toNat ≤ 0x30FF)

/-- Modelled from the spec (mecab_controller.format_output is not among the
provided sources): render a surface form together with its reading. -/
def format_output (w r : Str) : Str :=
  w ++ ('(' :: r) ++ [')']

/-- The long vowel mark, used when ordering candidate readings. -/
def longVowelMark : Char := 'ー'

/-- Python str.strip: remove leading and trailing whitespace. -/
def pyStrip (l : Str) : Str :=
  ((l.dropWhile Char.isWhitespace).reverse.dropWhile Char.isWhitespace).reverse

/-- Concatenation of a list of strings (Python str.join with no separator). -/
def joinAll (xs : List Str) : Str :=
  xs.flatten

/-- Python sep.join: concatenation with separator. -/
def joinSep (sep : Str) (xs : List Str) : Str :=
  List.intercalate sep xs

/-- Ordered-dictionary assignment: replace the value at an existing key in
place, otherwise append the binding at the end. -/
def odSet {α : Type} : List (Str × α) → Str → α → List (Str × α)
  | [], k, v => [(k, v)]
  | (k', v') :: rest, k, v =>
    if k' = k then (k', v) :: rest else (k', v') :: odSet rest k v

/-- Ordered-dictionary update (Python dict.update): fold the assignments of
the second dictionary over the first. -/
def odUpdate {α : Type} (d₁ d₂ : List (Str × α)) : List (Str × α) :=
  d₂.foldl (fun acc kv => odSet acc kv.1 kv.2) d₁

/-- Ordered-dictionary setdefault: insert only if the key is absent. -/
def odSetdefault {α : Type} (d : List (Str × α)) (k : Str) (v : α) : List (Str × α) :=
  if (List.lookup k d).isSome then d else d ++ [(k, v)]

/-- Deduplicate a list keeping the first occurrence of each element, in
first-seen order (Python dict.fromkeys). -/
def fromKeys {α : Type} [DecidableEq α] (l : List α) : List α :=
  l.foldl (fun acc x => if x ∈ acc then acc else acc ++ [x]) []

/-- Modelled from the spec: the specification-side characterization of
first-seen deduplication, keeping each distinct element exactly once at the
position of its first occurrence. -/
def firstSeen {α : Type} [DecidableEq α] : List α → List α
  | [] => []
  | x :: xs => x :: firstSeen (xs.filter (fun y => y ≠ x))
termination_by l => l.length
decreasing_by
  simp only [List.length_cons]
  exact Nat.lt_succ_of_le (List.length_filter_le _ _)

/-- The context of one resolution session: the accent dictionary, the
configuration snapshot, and the external collaborators of reading.py
(html sanitizer, morphological analyzer, tokenizer) together with helper
functions of the repository that are not among the provided sources
(reading normalization, conjugation alignment, reading merging), all
modelled as abstract functions. -/
structure Ctx where
  acc_dict : AccentDict
  stripHtml : Str → Str
  mecab : Str → List ParsedToken
  tokenize : Str → List Span
  isSep : Char → Bool
  pitch_blocklisted : Str → Bool
  furigana_blocklisted : Str → Bool
  can_lookup_in_db : Str → Bool
  kana_lookups : Bool
  use_mecab : Bool
  reading_separator : Str
  maximum_results : Nat
  prefer_long_vowel_mark : Bool
  mingle : List Str → Str
  adjust_reading : Str → Str → Str → Str
  unify_repr : Str → Str
  styles : List (Str × Str)
  output_hiragana : Bool

/-- The input processing of get_pronunciations: sanitize on the outermost
call, split an embedded bracket reading, and discard the extracted reading
when it is purely numeric or contains the configured reading separator.
The discard is hoisted before the blocklist check; this is behaviour
preserving because the blocklist check inspects only the word part. -/
def gpProcess (ctx : Ctx) (expr : Str) (san : Bool) : Str × Str :=
  let e1 := if san then ctx.stripHtml expr else expr
  let p := word_reading e1
  (p.1, if p.2 ≠ [] ∧ (pyIsNumeric p.2 ∨ ctx.reading_separator <:+: p.2) then [] else p.2)

/-- The exact-match branch of get_pronunciations: keep entries whose
katakana reading matches the explicit reading (when one is present),
skipping duplicates. -/
def exactFilter (r : Str) (entries : List FormattedEntry) : List FormattedEntry :=
  entries.foldl
    (fun acc ent =>
      if r ≠ [] ∧ to_katakana ent.katakana_reading ≠ to_katakana r then acc
      else if ent ∈ acc then acc else acc ++ [ent])
    []

/-- One unfolding of get_pronunciations, with the recursive self-calls
abstracted as `child`.  Mirrors reading.get_pronunciations: sanitize and
reading split, blocklist check, exact match with reading filter, katakana
fallback, separator split, morphological fallback with a final
katakana-reading retry. -/
def gpBody (ctx : Ctx) (child : Str → Bool → Bool → AccentDict)
    (expr : Str) (san rec : Bool) : AccentDict :=
  let pr := gpProcess ctx expr san
  let e := pr.1
  let r := pr.2
  if e = [] ∨ ctx.pitch_blocklisted e = true then []
  else
    match List.lookup e ctx.acc_dict with
    | some entries => [(e, exactFilter r entries)]
    | none =>
      if (List.lookup (to_katakana e) ctx.acc_dict).isSome ∧ ctx.kana_lookups = true then
        odUpdate [] (child (to_katakana e) false false)
      else if rec then
        let segs := split_separators ctx.isSep e
        let ret1 :=
          if 1 < segs.length then
            segs.foldl (fun acc s => odUpdate acc (child s false true)) []
          else []
        if ret1 = [] ∧ ctx.use_mecab = true then
          (ctx.mecab e).foldl
            (fun acc out =>
              let acc1 := odUpdate acc (child out.headword false false)
              if (List.lookup out.headword acc1).getD [] = []
                  ∧ out.katakana_reading ≠ [] ∧ ctx.kana_lookups = true then
                odUpdate acc1 (child out.katakana_reading false false)
              else acc1)
            ret1
        else ret1
      else []

/-- Fuel-indexed resolution: each unit of fuel allows one further level of
recursive self-calls of get_pronunciations. -/
def gpFuel (ctx : Ctx) : Nat → Str → Bool → Bool → AccentDict
  | 0, _, _, _ => []
  | f + 1, expr, san, rec => gpBody ctx (gpFuel ctx f) expr san rec

/-- reading.get_pronunciations.  Fuel 4 covers the deepest possible chain of
recursive self-calls (split segment, morphological headword, katakana
retry); the stabilization theorem below shows the result is unchanged by
any larger fuel. -/
def get_pronunciations (ctx : Ctx) (expr : Str) (san rec : Bool) : AccentDict :=
  gpFuel ctx 4 expr san rec

/-- reading.iter_accents: the entries recorded for the word itself by a
non-recursive lookup. -/
def iter_accents (ctx : Ctx) (word : Str) : List FormattedEntry :=
  (List.lookup word (get_pronunciations ctx word true false)).getD []

/-- Python str.replace for a nonempty needle: replace all non-overlapping
occurrences left to right. -/
def replaceCore (needle repl : Str) : Str → Str
  | [] => []
  | c :: rest =>
    if needle ≠ [] ∧ needle <+: (c :: rest) then
      repl ++ replaceCore needle repl ((c :: rest).drop needle.length)
    else c :: replaceCore needle repl rest
termination_by l => l.length
decreasing_by
  · have hn : 0 < needle.length := List.length_pos.mpr (by tauto)
    simp only [List.length_drop, List.length_cons]
    omega
  · simp

/-- Python str.replace, including the empty-needle case, which interleaves
the replacement around every character. -/
def replaceAll (needle repl : Str) (l : Str) : Str :=
  if needle = [] then repl ++ l.flatMap (fun c => c :: repl)
  else replaceCore needle repl l

/-- reading.convert_to_inline_style: map style classes to their
user-configured inline versions. -/
def convert_to_inline_style (ctx : Ctx) (txt : Str) : Str :=
  ctx.styles.foldl (fun t kv => replaceAll kv.1 kv.2 t) txt

/-- reading.update_html: inline styles, then optionally convert the notation
to hiragana. -/
def update_html (ctx : Ctx) (html_txt : Str) : Str :=
  let h := convert_to_inline_style ctx html_txt
  if ctx.output_hiragana then to_hiragana h else h

/-- reading.get_notation: html or pitch-number notation for an entry; any
other mode raises, modelled by `none`. -/
def get_notation (ctx : Ctx) (entry : FormattedEntry) (mode : TaskMode) : Option Str :=
  match mode with
  | TaskMode.html => some (update_html ctx entry.html_pattern)
  | TaskMode.number => some entry.pitch_number
  | TaskMode.furigana => none

/-- The first loop of reading.format_pronunciations: per word, render and
deduplicate the notations and keep the word only when the deduplicated
count is within the limit (a limit of zero disables the check).  Failure of
get_notation propagates. -/
def formatWordMap (ctx : Ctx) (mode : TaskMode) (maxRes : Nat) (sepSingle : Str) :
    AccentDict → List (Str × Str) → Option (List (Str × Str))
  | [], od => some od
  | (w, entries) :: rest, od =>
    match entries.mapM (fun e => get_notation ctx e mode) with
    | none => none
    | some ns =>
      let ks := fromKeys ns
      formatWordMap ctx mode maxRes sepSingle rest
        (if maxRes = 0 ∨ ks.length ≤ maxRes then odSet od w (joinSep sepSingle ks) else od)

/-- reading.format_pronunciations: join the surviving per-word notations,
optionally prefixing each with the word and an expression separator.  An
empty expression separator behaves like an absent one (Python truthiness of
the default argument). -/
def format_pronunciations (ctx : Ctx) (pron : AccentDict) (mode : TaskMode)
    (maxRes : Nat) (sepSingle sepMulti exprSep : Str) : Option Str :=
  match formatWordMap ctx mode maxRes sepSingle pron [] with
  | none => none
  | some od =>
    if exprSep ≠ [] then
      some (joinSep sepMulti (od.map (fun kv => kv.1 ++ exprSep ++ kv.2)))
    else
      some (joinSep sepMulti (od.map Prod.snd))

/-- The candidate ordering of reading.iter_furigana: Python stable sorted on
the boolean key of containing a long vowel mark, reversed when the
configuration prefers long-vowel-mark readings first. -/
def sortByLongVowel (prefer : Bool) (es : List FormattedEntry) : List FormattedEntry :=
  let p := es.partition (fun e => longVowelMark ∈ e.katakana_reading)
  if prefer then p.1 ++ p.2 else p.2 ++ p.1

/-- reading.iter_furigana: collect candidate annotated renderings for one
parsed token, keyed by the phonetically unified reading, first occurrence
winning; the analyzer reading first, then dictionary entries with readings
aligned to the surface form. -/
def iter_furigana (ctx : Ctx) (out : ParsedToken) : List Str :=
  let readings0 : List (Str × Str) :=
    if out.katakana_reading ≠ [] then
      odSet [] (ctx.unify_repr (to_hiragana out.katakana_reading))
        (format_output out.word (to_hiragana out.katakana_reading))
    else []
  let readings :=
    if ctx.can_lookup_in_db out.headword = true then
      (sortByLongVowel ctx.prefer_long_vowel_mark (iter_accents ctx out.headword)).foldl
        (fun rd entry =>
          let reading := ctx.adjust_reading out.word out.headword (to_hiragana entry.katakana_reading)
          odSetdefault rd (ctx.unify_repr reading) (format_output out.word reading))
        readings0
    else readings0
  readings.map Prod.snd

/-- reading.format_furigana: pure-kana or blocklisted words are returned
unchanged; otherwise the candidates are merged when there are between two
and the configured maximum of them, and the first candidate is returned
otherwise; with no candidates the word is returned unchanged. -/
def format_furigana (ctx : Ctx) (out : ParsedToken) : Str :=
  if is_kana_word out.word = true ∨ ctx.furigana_blocklisted out.word = true then out.word
  else
    match iter_furigana ctx out with
    | [] => out.word
    | r :: rs =>
      if 1 < (r :: rs).length ∧ (r :: rs).length ≤ ctx.maximum_results then
        ctx.mingle (r :: rs)
      else r

/-- reading.try_lookup_full_text: look up the whole text as a dummy token
and report the furigana only when it differs from the text. -/
def try_lookup_full_text (ctx : Ctx) (text : Str) : Option Str :=
  let furigana := format_furigana ctx ⟨text, [], text⟩
  if furigana ≠ text then some furigana else none

/-- reading.generate_furigana: tokenize, annotate parseable spans (whole-span
lookup first, morphological analysis otherwise), pass literal spans through,
join everything and strip surrounding whitespace.  An empty whole-span
result is falsy in Python and falls through to the analyzer. -/
def generate_furigana (ctx : Ctx) (src : Str) : Str :=
  pyStrip (joinAll ((ctx.tokenize src).foldl
    (fun ss tok =>
      match tok with
      | Span.parseable t =>
        match try_lookup_full_text ctx t with
        | some f =>
          if f ≠ [] then ss ++ [f]
          else ss ++ (ctx.mecab t).map (format_furigana ctx)
        | none => ss ++ (ctx.mecab t).map (format_furigana ctx)
      | Span.literal s => ss ++ [s])
    []))

/-- The contribution of one tokenizer span to generate_furigana. -/
def renderSpan (ctx : Ctx) : Span → Str
  | Span.parseable t =>
    match try_lookup_full_text ctx t with
    | some f =>
      if f ≠ [] then f
      else joinAll ((ctx.mecab t).map (format_furigana ctx))
    | none => joinAll ((ctx.mecab t).map (format_furigana ctx))
  | Span.literal s => s

/-! ### Basic facts about the kana conversion -/

theorem char_toNat_ofNat_of_lt {n : Nat} (h : n < 55296) : (Char.ofNat n).toNat = n := by
  unfold Char.ofNat
  rw [dif_pos (Or.inl h)]
  rfl

theorem katakanizeChar_toNat_of_hira {c : Char}
    (h : 0x3041 ≤ c.toNat ∧ c.toNat ≤ 0x3096) :
    (katakanizeChar c).toNat = c.toNat + 0x60 := by
  unfold katakanizeChar
  rw [if_pos h]
  exact char_toNat_ofNat_of_lt (by omega)

theorem katakanizeChar_of_not_hira {c : Char}
    (h : ¬(0x3041 ≤ c.toNat ∧ c.toNat ≤ 0x3096)) :
    katakanizeChar c = c := by
  unfold katakanizeChar
  rw [if_neg h]

theorem katakanizeChar_idem (c : Char) :
    katakanizeChar (katakanizeChar c) = katakanizeChar c := by
  by_cases h : 0x3041 ≤ c.toNat ∧ c.toNat ≤ 0x3096
  · have h2 := katakanizeChar_toNat_of_hira h
    exact katakanizeChar_of_not_hira (by omega)
  · rw [katakanizeChar_of_not_hira h]
    exact katakanizeChar_of_not_hira h

theorem katakanizeChar_eq_lbrack {c : Char} (h : katakanizeChar c = '[') : c = '[' := by
  by_cases hg : 0x3041 ≤ c.toNat ∧ c.toNat ≤ 0x3096
  · exfalso
    have h2 := katakanizeChar_toNat_of_hira hg
    rw [h] at h2
    have : ('[').toNat = 91 := by decide
    omega
  · rw [katakanizeChar_of_not_hira hg] at h
    exact h

theorem to_katakana_idem (l : Str) : to_katakana (to_katakana l) = to_katakana l := by
  simp only [to_katakana, List.map_map]
  exact List.map_congr_left (fun a _ => katakanizeChar_idem a)

theorem to_katakana_bfree {l : Str} (h : '[' ∉ l) : '[' ∉ to_katakana l := by
  simp only [to_katakana, List.mem_map]
  rintro ⟨c, hc, he⟩
  exact h (katakanizeChar_eq_lbrack he ▸ hc)

/-! ### Facts about word_reading -/

theorem wr_foldl_bfree (l : Str) :
    ∀ (b : Bool) (w r : Str), '[' ∉ w → '[' ∉ (l.foldl wrStep (b, w, r)).2.1 := by
  induction l with
  | nil => intro b w r hw; exact hw
  | cons c rest ih =>
    intro b w r hw
    rw [List.foldl_cons]
    cases b with
    | false =>
      by_cases hc : c = '['
      · subst hc
        rw [show wrStep (false, w, r) '[' = (true, w, r) from by simp [wrStep]]
        exact ih true w r hw
      · rw [show wrStep (false, w, r) c = (false, w ++ [c], r) from by simp [wrStep, hc]]
        refine ih false (w ++ [c]) r ?_
        simp only [List.mem_append, List.mem_singleton]
        rintro (h | h)
        · exact hw h
        · exact hc h.symm
    | true =>
      by_cases hc : c = ']'
      · subst hc
        rw [show wrStep (true, w, r) ']' = (false, w, r) from by simp [wrStep]]
        exact ih false w r hw
      · rw [show wrStep (true, w, r) c = (true, w, r ++ [c]) from by simp [wrStep, hc]]
        exact ih true w (r ++ [c]) hw

theorem word_reading_bfree (l : Str) : '[' ∉ (word_reading l).1 := by
  unfold word_reading
  exact wr_foldl_bfree l false [] [] (by simp)

theorem wr_foldl_id (l : Str) (hl : '[' ∉ l) :
    ∀ w r, List.foldl wrStep (false, w, r) l = (false, w ++ l, r) := by
  induction l with
  | nil => intro w r; simp
  | cons c rest ih =>
    intro w r
    have hc : c ≠ '[' := fun h => hl (h ▸ List.mem_cons_self c rest)
    have hrest : '[' ∉ rest := fun h => hl (List.mem_cons_of_mem _ h)
    rw [List.foldl_cons]
    rw [show wrStep (false, w, r) c = (false, w ++ [c], r) from by simp [wrStep, hc]]
    rw [ih hrest (w ++ [c]) r]
    simp

theorem word_reading_of_bfree {l : Str} (h : '[' ∉ l) : word_reading l = (l, []) := by
  unfold word_reading
  rw [wr_foldl_id l h [] []]
  simp

/-! ### Facts about split_separators -/

theorem split_separators_ne_nil (p : Char → Bool) (l : Str) :
    split_separators p l ≠ [] := by
  induction l with
  | nil => simp [split_separators]
  | cons c rest ih =>
    unfold split_separators
    by_cases hc : p c
    · simp [hc]
    · simp only [hc]
      cases h : split_separators p rest with
      | nil => simp
      | cons s ss => simp

theorem split_separators_mem_subset (p : Char → Bool) (l : Str) :
    ∀ s ∈ split_separators p l, ∀ c ∈ s, c ∈ l := by
  induction l with
  | nil =>
    intro s hs c hc
    simp [split_separators] at hs
    subst hs
    simp at hc
  | cons a rest ih =>
    intro s hs c hc
    unfold split_separators at hs
    by_cases ha : p a
    · simp only [ha, if_true, List.mem_cons] at hs
      rcases hs with hs | hs
      · subst hs; simp at hc
      · exact List.mem_cons_of_mem _ (ih s hs c hc)
    · simp only [ha] at hs
      rcases hsp : split_separators p rest with _ | ⟨s₀, ss⟩
      · exact absurd hsp (split_separators_ne_nil p rest)
      · rw [hsp] at hs
        simp only [Bool.false_eq_true, if_false, List.mem_cons] at hs
        rcases hs with hs | hs
        · subst hs
          rcases List.mem_cons.mp hc with hc | hc
          · exact hc ▸ List.mem_cons_self a rest
          · exact List.mem_cons_of_mem _ (ih s₀ (hsp ▸ List.mem_cons_self s₀ ss) c hc)
        · exact List.mem_cons_of_mem _ (ih s (hsp ▸ List.mem_cons_of_mem _ hs) c hc)

theorem split_separators_sepfree (p : Char → Bool) (l : Str) :
    ∀ s ∈ split_separators p l, ∀ c ∈ s, p c = false := by
  induction l with
  | nil =>
    intro s hs c hc
    simp [split_separators] at hs
    subst hs
    simp at hc
  | cons a rest ih =>
    intro s hs c hc
    unfold split_separators at hs
    by_cases ha : p a
    · simp only [ha, if_true, List.mem_cons] at hs
      rcases hs with hs | hs
      · subst hs; simp at hc
      · exact ih s hs c hc
    · simp only [ha] at hs
      rcases hsp : split_separators p rest with _ | ⟨s₀, ss⟩
      · exact absurd hsp (split_separators_ne_nil p rest)
      · rw [hsp] at hs
        simp only [Bool.false_eq_true, if_false, List.mem_cons] at hs
        rcases hs with hs | hs
        · subst hs
          rcases List.mem_cons.mp hc with hc | hc
          · subst hc; exact Bool.not_eq_true _ ▸ (by simpa using ha)
          · exact ih s₀ (hsp ▸ List.mem_cons_self s₀ ss) c hc
        · exact ih s (hsp ▸ List.mem_cons_of_mem _ hs) c hc

theorem split_separators_length (p : Char → Bool) (l : Str) :
    (split_separators p l).length = l.countP p + 1 := by
  induction l with
  | nil => simp [split_separators]
  | cons a rest ih =>
    unfold split_separators
    by_cases ha : p a
    · simp [ha, ih, List.countP_cons]
    · simp only [ha]
      rcases hsp : split_separators p rest with _ | ⟨s₀, ss⟩
      · exact absurd hsp (split_separators_ne_nil p rest)
      · rw [hsp] at ih
        simp only [Bool.false_eq_true, if_false, List.length_cons, List.countP_cons, ha]
        simp only [List.length_cons] at ih
        simp [ih]

theorem split_separators_of_sepfree (p : Char → Bool) (l : Str)
    (h : ∀ c ∈ l, p c = false) : split_separators p l = [l] := by
  induction l with
  | nil => simp [split_separators]
  | cons a rest ih =>
    unfold split_separators
    have ha : p a = false := h a (List.mem_cons_self a rest)
    rw [ih (fun c hc => h c (List.mem_cons_of_mem _ hc))]
    simp [ha]

theorem split_separators_seg_length (p : Char → Bool) (l : Str)
    (hlen : 1 < (split_separators p l).length) :
    ∀ s ∈ split_separators p l, s.length < l.length := by
  have hsum : ∀ (l : Str) (s : Str), s ∈ split_separators p l →
      s.length + l.countP p ≤ l.length := by
    intro l
    induction l with
    | nil =>
      intro s hs
      simp [split_separators] at hs
      subst hs
      simp
    | cons a rest ih =>
      intro s hs
      unfold split_separators at hs
      by_cases ha : p a
      · simp only [ha, if_true, List.mem_cons] at hs
        rcases hs with hs | hs
        · subst hs
          simp only [List.length_nil, List.countP_cons, ha, if_true, List.length_cons]
          have := List.countP_le_length (p := p) (l := rest)
          omega
        · have := ih s hs
          simp only [List.countP_cons, ha, if_true, List.length_cons]
          omega
      · simp only [ha] at hs
        rcases hsp : split_separators p rest with _ | ⟨s₀, ss⟩
        · exact absurd hsp (split_separators_ne_nil p rest)
        · rw [hsp] at hs
          simp only [Bool.false_eq_true, if_false, List.mem_cons] at hs
          have ha' : p a = false := by simpa using ha
          rcases hs with hs | hs
          · subst hs
            have := ih s₀ (hsp ▸ List.mem_cons_self s₀ ss)
            simp only [List.countP_cons, ha', List.length_cons, Bool.false_eq_true,
              if_false]
            omega
          · have := ih s (hsp ▸ List.mem_cons_of_mem _ hs)
            simp only [List.countP_cons, ha', List.length_cons, Bool.false_eq_true,
              if_false]
            omega
  intro s hs
  have h1 := hsum l s hs
  have h2 := split_separators_length p l
  omega

/-! ### Facts about the ordered-dictionary operations -/

theorem lookup_odSet_self {α : Type} (d : List (Str × α)) (k : Str) (v : α) :
    List.lookup k (odSet d k v) = some v := by
  induction d with
  | nil => simp [odSet, List.lookup]
  | cons kv rest ih =>
    obtain ⟨k', v'⟩ := kv
    by_cases h : k' = k
    · subst h
      simp [odSet, List.lookup_cons]
    · unfold odSet
      rw [if_neg h]
      rw [List.lookup_cons]
      have hb : (k == k') = false := beq_false_of_ne (Ne.symm h)
      rw [hb]
      exact ih

theorem lookup_odSet_ne {α : Type} (d : List (Str × α)) (k k' : Str) (v : α)
    (h : k' ≠ k) : List.lookup k' (odSet d k v) = List.lookup k' d := by
  induction d with
  | nil =>
    simp only [odSet]
    rw [List.lookup_cons]
    have hb : (k' == k) = false := beq_false_of_ne h
    rw [hb]
  | cons kv rest ih =>
    obtain ⟨k₀, v₀⟩ := kv
    unfold odSet
    by_cases h0 : k₀ = k
    · rw [if_pos h0]
      rw [List.lookup_cons, List.lookup_cons]
      subst h0
      have hb : (k' == k₀) = false := beq_false_of_ne h
      rw [hb]
    · rw [if_neg h0]
      rw [List.lookup_cons, List.lookup_cons]
      cases hb : (k' == k₀) with
      | true => rfl
      | false => exact ih

theorem lookup_isSome_odUpdate {α : Type} (d₁ d₂ : List (Str × α)) (key : Str)
    (h : (List.lookup key (odUpdate d₁ d₂)).isSome) :
    (List.lookup key d₁).isSome ∨ (List.lookup key d₂).isSome := by
  unfold odUpdate at h
  induction d₂ generalizing d₁ with
  | nil => exact Or.inl h
  | cons kv rest ih =>
    obtain ⟨k, v⟩ := kv
    rw [List.foldl_cons] at h
    by_cases hk : key = k
    · subst hk
      right
      rw [List.lookup_cons]
      simp
    · rcases ih (odSet d₁ k v) h with h1 | h2
      · rw [lookup_odSet_ne d₁ k key v hk] at h1
        exact Or.inl h1
      · right
        rw [List.lookup_cons]
        have hb : (key == k) = false := beq_false_of_ne hk
        rw [hb]
        exact h2

/-- Invariant propagation through a left fold: if each step either preserves
the invariant backwards or charges it to its element, the invariant of the
result is explained by the start or by some element. -/
theorem foldl_accum {α β : Type} (step : β → α → β) (P : β → Prop) (Q : α → Prop)
    (l : List α) (init : β)
    (hstep : ∀ acc a, a ∈ l → P (step acc a) → P acc ∨ Q a)
    (h : P (l.foldl step init)) : P init ∨ ∃ a ∈ l, Q a := by
  induction l generalizing init with
  | nil => exact Or.inl h
  | cons a rest ih =>
    rw [List.foldl_cons] at h
    rcases ih (step init a) (fun acc b hb => hstep acc b (List.mem_cons_of_mem _ hb)) h with
      h1 | h2
    · rcases hstep init a (List.mem_cons_self a rest) h1 with hp | hq
      · exact Or.inl hp
      · exact Or.inr ⟨a, List.mem_cons_self a rest, hq⟩
    · obtain ⟨b, hb, hqb⟩ := h2
      exact Or.inr ⟨b, List.mem_cons_of_mem _ hb, hqb⟩

/-- Congruence of a left fold whose step functions agree on the members of
the list. -/
theorem foldl_congr_mem {α β : Type} (l : List α) (f g : β → α → β) (init : β)
    (h : ∀ acc a, a ∈ l → f acc a = g acc a) : l.foldl f init = l.foldl g init := by
  induction l generalizing init with
  | nil => rfl
  | cons a rest ih =>
    rw [List.foldl_cons, List.foldl_cons]
    rw [h init a (List.mem_cons_self a rest)]
    exact ih _ (fun acc b hb => h acc b (List.mem_cons_of_mem _ hb))

/-! ### Stabilization of the fuelled resolution -/

theorem gpProcess_fst_bfree (ctx : Ctx) (expr : Str) (san : Bool) :
    '[' ∉ (gpProcess ctx expr san).1 := by
  unfold gpProcess
  exact word_reading_bfree _

theorem gpProcess_of_bfree (ctx : Ctx) (l : Str) (h : '[' ∉ l) :
    gpProcess ctx l false = (l, []) := by
  unfold gpProcess
  simp only [Bool.false_eq_true, if_false]
  rw [word_reading_of_bfree h]
  simp

theorem gpBody_congr (ctx : Ctx) (c₁ c₂ : Str → Bool → Bool → AccentDict)
    (expr : Str) (san rec : Bool) (e r : Str)
    (hpr : gpProcess ctx expr san = (e, r))
    (hhop : c₁ (to_katakana e) false false = c₂ (to_katakana e) false false)
    (hsegs : rec = true → 1 < (split_separators ctx.isSep e).length →
      ∀ s ∈ split_separators ctx.isSep e, c₁ s false true = c₂ s false true)
    (hmec : rec = true → ∀ t ∈ ctx.mecab e,
      c₁ t.headword false false = c₂ t.headword false false ∧
      c₁ t.katakana_reading false false = c₂ t.katakana_reading false false) :
    gpBody ctx c₁ expr san rec = gpBody ctx c₂ expr san rec := by
  unfold gpBody
  rw [hpr]
  dsimp only
  by_cases hbl : e = [] ∨ ctx.pitch_blocklisted e = true
  · rw [if_pos hbl, if_pos hbl]
  · rw [if_neg hbl, if_neg hbl]
    cases hlk : List.lookup e ctx.acc_dict with
    | some entries => rfl
    | none =>
      by_cases hhopc : (List.lookup (to_katakana e) ctx.acc_dict).isSome ∧ ctx.kana_lookups = true
      · rw [if_pos hhopc, if_pos hhopc, hhop]
      · rw [if_neg hhopc, if_neg hhopc]
        cases rec with
        | false => rfl
        | true =>
          simp only [if_true]
          have hret : (if 1 < (split_separators ctx.isSep e).length then
                (split_separators ctx.isSep e).foldl
                  (fun acc s => odUpdate acc (c₁ s false true)) []
              else []) =
              (if 1 < (split_separators ctx.isSep e).length then
                (split_separators ctx.isSep e).foldl
                  (fun acc s => odUpdate acc (c₂ s false true)) []
              else []) := by
            by_cases hl : 1 < (split_separators ctx.isSep e).length
            · rw [if_pos hl, if_pos hl]
              exact foldl_congr_mem _ _ _ _ (fun acc s hs => by rw [hsegs rfl hl s hs])
            · rw [if_neg hl, if_neg hl]
          rw [hret]
          by_cases hm : ((if 1 < (split_separators ctx.isSep e).length then
                (split_separators ctx.isSep e).foldl
                  (fun acc s => odUpdate acc (c₂ s false true)) []
              else []) = [] ∧ ctx.use_mecab = true)
          · rw [if_pos hm, if_pos hm]
            refine foldl_congr_mem _ _ _ _ (fun acc t ht => ?_)
            rw [(hmec rfl t ht).1, (hmec rfl t ht).2]
          · rw [if_neg hm, if_neg hm]

theorem gpFuel_succ (ctx : Ctx) (f : Nat) (expr : Str) (san rec : Bool) :
    gpFuel ctx (f + 1) expr san rec = gpBody ctx (gpFuel ctx f) expr san rec := rfl

/-- A bracket-free, katakana-fixed expression resolved non-recursively never
consults the recursive self-call: the body is the same for any child. -/
theorem gpBody_klocked (ctx : Ctx) (c₁ c₂ : Str → Bool → Bool → AccentDict)
    (l : Str) (hB : '[' ∉ l) (hK : to_katakana l = l) :
    gpBody ctx c₁ l false false = gpBody ctx c₂ l false false := by
  unfold gpBody
  rw [gpProcess_of_bfree ctx l hB]
  dsimp only
  by_cases hbl : l = [] ∨ ctx.pitch_blocklisted l = true
  · rw [if_pos hbl, if_pos hbl]
  · rw [if_neg hbl, if_neg hbl]
    cases hlk : List.lookup l ctx.acc_dict with
    | some entries => rfl
    | none =>
      have hhopc : ¬((List.lookup (to_katakana l) ctx.acc_dict).isSome ∧
          ctx.kana_lookups = true) := by
        rw [hK, hlk]
        simp
      rw [if_neg hhopc, if_neg hhopc]
      rfl

theorem gpFuel_klocked (ctx : Ctx) (l : Str) (hB : '[' ∉ l) (hK : to_katakana l = l)
    (f g : Nat) : gpFuel ctx (f + 1) l false false = gpFuel ctx (g + 1) l false false := by
  rw [gpFuel_succ, gpFuel_succ]
  exact gpBody_klocked ctx _ _ l hB hK

theorem gpFuel_norec (ctx : Ctx) (l : Str) (f g : Nat) :
    gpFuel ctx (f + 2) l false false = gpFuel ctx (g + 2) l false false := by
  rw [show f + 2 = (f + 1) + 1 from rfl, show g + 2 = (g + 1) + 1 from rfl]
  rw [gpFuel_succ, gpFuel_succ]
  rcases hp : gpProcess ctx l false with ⟨e, r⟩
  have heB : '[' ∉ e := by
    have := gpProcess_fst_bfree ctx l false
    rw [hp] at this
    exact this
  refine gpBody_congr ctx _ _ l false false e r hp ?_ ?_ ?_
  · exact gpFuel_klocked ctx (to_katakana e) (to_katakana_bfree heB) (to_katakana_idem e) f g
  · intro hrec
    exact absurd hrec (by simp)
  · intro hrec
    exact absurd hrec (by simp)

theorem gpFuel_seg (ctx : Ctx) (s : Str) (hB : '[' ∉ s)
    (hsep : ∀ c ∈ s, ctx.isSep c = false) (f g : Nat) :
    gpFuel ctx (f + 3) s false true = gpFuel ctx (g + 3) s false true := by
  rw [show f + 3 = (f + 2) + 1 from rfl, show g + 3 = (g + 2) + 1 from rfl]
  rw [gpFuel_succ, gpFuel_succ]
  have hp : gpProcess ctx s false = (s, []) := gpProcess_of_bfree ctx s hB
  refine gpBody_congr ctx _ _ s false true s [] hp ?_ ?_ ?_
  · exact gpFuel_klocked ctx (to_katakana s) (to_katakana_bfree hB) (to_katakana_idem s)
      (f + 1) (g + 1)
  · intro _ hlen
    rw [split_separators_of_sepfree ctx.isSep s hsep] at hlen
    simp at hlen
  · intro _ t _
    exact ⟨gpFuel_norec ctx t.headword f g, gpFuel_norec ctx t.katakana_reading f g⟩

theorem gpFuel_stab (ctx : Ctx) (raw : Str) (san rec : Bool) (f g : Nat) :
    gpFuel ctx (f + 4) raw san rec = gpFuel ctx (g + 4) raw san rec := by
  rw [show f + 4 = (f + 3) + 1 from rfl, show g + 4 = (g + 3) + 1 from rfl]
  rw [gpFuel_succ, gpFuel_succ]
  rcases hp : gpProcess ctx raw san with ⟨e, r⟩
  have heB : '[' ∉ e := by
    have := gpProcess_fst_bfree ctx raw san
    rw [hp] at this
    exact this
  refine gpBody_congr ctx _ _ raw san rec e r hp ?_ ?_ ?_
  · exact gpFuel_klocked ctx (to_katakana e) (to_katakana_bfree heB) (to_katakana_idem e)
      (f + 2) (g + 2)
  · intro _ _ s hs
    have hsB : '[' ∉ s := fun hmem =>
      heB (split_separators_mem_subset ctx.isSep e s hs '[' hmem)
    exact gpFuel_seg ctx s hsB (split_separators_sepfree ctx.isSep e s hs) f g
  · intro _ t _
    exact ⟨gpFuel_norec ctx t.headword (f + 1) (g + 1),
      gpFuel_norec ctx t.katakana_reading (f + 1) (g + 1)⟩

/-! ### Keys of a resolution result come from the dictionary -/

theorem gpBody_keys (ctx : Ctx) (child : Str → Bool → Bool → AccentDict) (raw : Str)
    (san rec : Bool) (key : Str)
    (hchild : ∀ s r', (List.lookup key (child s false r')).isSome = true →
      (List.lookup key ctx.acc_dict).isSome = true)
    (h : (List.lookup key (gpBody ctx child raw san rec)).isSome = true) :
    (List.lookup key ctx.acc_dict).isSome = true := by
  unfold gpBody at h
  rcases hp : gpProcess ctx raw san with ⟨e, r⟩
  rw [hp] at h
  dsimp only at h
  by_cases hbl : e = [] ∨ ctx.pitch_blocklisted e = true
  · rw [if_pos hbl] at h
    simp [List.lookup] at h
  · rw [if_neg hbl] at h
    cases hlk : List.lookup e ctx.acc_dict with
    | some entries =>
      rw [hlk] at h
      by_cases hke : key = e
      · subst hke
        rw [hlk]
        rfl
      · rw [List.lookup_cons] at h
        rw [beq_false_of_ne hke] at h
        simp [List.lookup] at h
    | none =>
      rw [hlk] at h
      by_cases hhopc : (List.lookup (to_katakana e) ctx.acc_dict).isSome ∧
          ctx.kana_lookups = true
      · rw [if_pos hhopc] at h
        rcases lookup_isSome_odUpdate _ _ _ h with h1 | h2
        · simp [List.lookup] at h1
        · exact hchild _ _ h2
      · rw [if_neg hhopc] at h
        cases rec with
        | false => simp [List.lookup] at h
        | true =>
          rw [if_pos rfl] at h
          have hR : ∀ hR0 : (List.lookup key
              (if 1 < (split_separators ctx.isSep e).length then
                (split_separators ctx.isSep e).foldl
                  (fun acc s => odUpdate acc (child s false true)) []
              else [])).isSome = true,
              (List.lookup key ctx.acc_dict).isSome = true := by
            intro hR0
            by_cases hl : 1 < (split_separators ctx.isSep e).length
            · rw [if_pos hl] at hR0
              rcases foldl_accum _ (fun d => (List.lookup key d).isSome = true)
                  (fun s => (List.lookup key (child s false true)).isSome = true)
                  _ _ (fun acc s _ hq => lookup_isSome_odUpdate _ _ _ hq) hR0 with
                h1 | ⟨s, _, hs⟩
              · simp [List.lookup] at h1
              · exact hchild _ _ hs
            · rw [if_neg hl] at hR0
              simp [List.lookup] at hR0
          by_cases hm : ((if 1 < (split_separators ctx.isSep e).length then
                (split_separators ctx.isSep e).foldl
                  (fun acc s => odUpdate acc (child s false true)) []
              else []) = [] ∧ ctx.use_mecab = true)
          · rw [if_pos hm] at h
            have hstep : ∀ acc out, out ∈ ctx.mecab e →
                (List.lookup key
                  ((fun acc out =>
                    if (List.lookup out.headword
                          (odUpdate acc (child out.headword false false))).getD [] = []
                        ∧ out.katakana_reading ≠ [] ∧ ctx.kana_lookups = true then
                      odUpdate (odUpdate acc (child out.headword false false))
                        (child out.katakana_reading false false)
                    else odUpdate acc (child out.headword false false)) acc out)).isSome
                    = true →
                (List.lookup key acc).isSome = true ∨
                ((List.lookup key (child out.headword false false)).isSome = true ∨
                  (List.lookup key (child out.katakana_reading false false)).isSome = true) := by
              intro acc out _ hq
              dsimp only at hq
              by_cases hc : (List.lookup out.headword
                    (odUpdate acc (child out.headword false false))).getD [] = []
                  ∧ out.katakana_reading ≠ [] ∧ ctx.kana_lookups = true
              · rw [if_pos hc] at hq
                rcases lookup_isSome_odUpdate _ _ _ hq with h1 | h2
                · rcases lookup_isSome_odUpdate _ _ _ h1 with h3 | h4
                  · exact Or.inl h3
                  · exact Or.inr (Or.inl h4)
                · exact Or.inr (Or.inr h2)
              · rw [if_neg hc] at hq
                rcases lookup_isSome_odUpdate _ _ _ hq with h1 | h2
                · exact Or.inl h1
                · exact Or.inr (Or.inl h2)
            rcases foldl_accum _ (fun d => (List.lookup key d).isSome = true)
                (fun out => (List.lookup key (child out.headword false false)).isSome = true ∨
                  (List.lookup key (child out.katakana_reading false false)).isSome = true)
                _ _ hstep h with h1 | ⟨t, _, ht⟩
            · exact hR h1
            · rcases ht with ht | ht
              · exact hchild _ _ ht
              · exact hchild _ _ ht
          · rw [if_neg hm] at h
            exact hR h

theorem gpFuel_keys (ctx : Ctx) (key : Str) :
    ∀ (f : Nat) (raw : Str) (san rec : Bool),
      (List.lookup key (gpFuel ctx f raw san rec)).isSome = true →
      (List.lookup key ctx.acc_dict).isSome = true := by
  intro f
  induction f with
  | zero =>
    intro raw san rec h
    simp [gpFuel, List.lookup] at h
  | succ n ih =>
    intro raw san rec h
    rw [gpFuel_succ] at h
    exact gpBody_keys ctx _ raw san rec key (fun s r' hs => ih s false r' hs) h

/-! ### The exact-match filter respects the explicit reading -/

theorem exactFilter_mem (r : Str) (entries : List FormattedEntry) :
    ∀ ent ∈ exactFilter r entries, r ≠ [] →
      to_katakana ent.katakana_reading = to_katakana r := by
  unfold exactFilter
  suffices haux : ∀ acc : List FormattedEntry,
      (∀ x ∈ acc, r ≠ [] → to_katakana x.katakana_reading = to_katakana r) →
      ∀ ent ∈ entries.foldl
        (fun acc ent =>
          if r ≠ [] ∧ to_katakana ent.katakana_reading ≠ to_katakana r then acc
          else if ent ∈ acc then acc else acc ++ [ent]) acc,
        r ≠ [] → to_katakana ent.katakana_reading = to_katakana r by
    exact haux [] (by simp)
  induction entries with
  | nil =>
    intro acc hacc ent hent
    exact hacc ent hent
  | cons a rest ih =>
    intro acc hacc
    rw [List.foldl_cons]
    refine ih _ ?_
    by_cases h1 : r ≠ [] ∧ to_katakana a.katakana_reading ≠ to_katakana r
    · rw [if_pos h1]
      exact hacc
    · rw [if_neg h1]
      by_cases h2 : a ∈ acc
      · rw [if_pos h2]
        exact hacc
      · rw [if_neg h2]
        intro x hx hr
        rcases List.mem_append.mp hx with hx | hx
        · exact hacc x hx hr
        · have hxa : x = a := by simpa using hx
          subst hxa
          push_neg at h1
          exact h1 hr

/-! ### Branch shapes of one resolution step -/

theorem gpBody_blocked (ctx : Ctx) (child : Str → Bool → Bool → AccentDict)
    (raw : Str) (san rec : Bool) (e r : Str)
    (hpr : gpProcess ctx raw san = (e, r))
    (hbl : e = [] ∨ ctx.pitch_blocklisted e = true) :
    gpBody ctx child raw san rec = [] := by
  unfold gpBody
  rw [hpr]
  dsimp only
  rw [if_pos hbl]

theorem gpBody_exact (ctx : Ctx) (child : Str → Bool → Bool → AccentDict)
    (raw : Str) (san rec : Bool) (e r : Str) (entries : List FormattedEntry)
    (hpr : gpProcess ctx raw san = (e, r))
    (hbl : ¬(e = [] ∨ ctx.pitch_blocklisted e = true))
    (hlk : List.lookup e ctx.acc_dict = some entries) :
    gpBody ctx child raw san rec = [(e, exactFilter r entries)] := by
  unfold gpBody
  rw [hpr]
  dsimp only
  rw [if_neg hbl, hlk]

theorem gpBody_kana (ctx : Ctx) (child : Str → Bool → Bool → AccentDict)
    (raw : Str) (san rec : Bool) (e r : Str)
    (hpr : gpProcess ctx raw san = (e, r))
    (hbl : ¬(e = [] ∨ ctx.pitch_blocklisted e = true))
    (hlk : List.lookup e ctx.acc_dict = none)
    (hk : (List.lookup (to_katakana e) ctx.acc_dict).isSome = true)
    (hkl : ctx.kana_lookups = true) :
    gpBody ctx child raw san rec = odUpdate [] (child (to_katakana e) false false) := by
  unfold gpBody
  rw [hpr]
  dsimp only
  rw [if_neg hbl, hlk]
  rw [if_pos ⟨hk, hkl⟩]

theorem get_pronunciations_eq_body (ctx : Ctx) (expr : Str) (san rec : Bool) :
    get_pronunciations ctx expr san rec = gpBody ctx (gpFuel ctx 3) expr san rec := rfl

/-- A non-recursive resolution never consults the morphological analyzer:
the result is the same for any two analyzers. -/
theorem gpFuel_mecab_irrel (ctx : Ctx) (m₂ : Str → List ParsedToken) :
    ∀ (g : Nat) (expr : Str) (san : Bool),
      gpFuel ctx g expr san false = gpFuel { ctx with mecab := m₂ } g expr san false := by
  intro g
  induction g with
  | zero => intro expr san; rfl
  | succ n ih =>
    intro expr san
    rw [gpFuel_succ, gpFuel_succ]
    unfold gpBody
    have hpr : gpProcess { ctx with mecab := m₂ } expr san = gpProcess ctx expr san := rfl
    rw [hpr]
    rcases hp : gpProcess ctx expr san with ⟨e, r⟩
    dsimp only
    by_cases hbl : e = [] ∨ ctx.pitch_blocklisted e = true
    · rw [if_pos hbl, if_pos hbl]
    · rw [if_neg hbl, if_neg hbl]
      cases hlk : List.lookup e ctx.acc_dict with
      | some entries => rfl
      | none =>
        by_cases hhopc : (List.lookup (to_katakana e) ctx.acc_dict).isSome ∧
            ctx.kana_lookups = true
        · rw [if_pos hhopc, if_pos hhopc]
          rw [ih (to_katakana e) false]
        · rw [if_neg hhopc, if_neg hhopc]
          rfl

/-- Claim C1: resolution terminates for every expression and dictionary.
The result of the fuelled resolution is already stable at fuel four (one
separator-split level plus the two morphological levels of headword and
katakana-reading retry), a non-recursive call never consults the
morphological analyzer (so a sub-lookup of the morphological-fallback
branch, made with allowRecursion false, never triggers another
morphological pass), and when the separator split produces more than one
segment, every segment is strictly shorter than the input. -/
theorem c1_resolve_terminates (ctx : Ctx) (m₂ : Str → List ParsedToken)
    (expr e s : Str) (san rec : Bool) (f g : Nat)
    (hf : 4 ≤ f)
    (hlen : 1 < (split_separators ctx.isSep e).length)
    (hs : s ∈ split_separators ctx.isSep e) :
    gpFuel ctx f expr san rec = get_pronunciations ctx expr san rec
    ∧ gpFuel ctx g expr san false = gpFuel { ctx with mecab := m₂ } g expr san false
    ∧ s.length < e.length := by
  refine ⟨?_, gpFuel_mecab_irrel ctx m₂ g expr san,
    split_separators_seg_length ctx.isSep e hlen s hs⟩
  obtain ⟨k, hk⟩ : ∃ k, f = k + 4 := ⟨f - 4, by omega⟩
  subst hk
  unfold get_pronunciations
  have h := gpFuel_stab ctx expr san rec k 0
  simpa using h

/-- Claim C3: each fallback step of the resolution runs only if the previous
produced no entries.  When the processed expression is a dictionary key the
result is exactly the filtered exact-match entries (even when the explicit
reading filters all of them out, no fallback runs); the katakana fallback
step determines the result alone when the exact match misses and the
katakana key is present. -/
theorem c3_fallback_priority (ctx : Ctx) (expr : Str) (san rec : Bool) (e r : Str)
    (hpr : gpProcess ctx expr san = (e, r))
    (hne : ¬(e = [] ∨ ctx.pitch_blocklisted e = true)) :
    ((List.lookup e ctx.acc_dict).isSome = true →
      get_pronunciations ctx expr san rec =
        [(e, exactFilter r ((List.lookup e ctx.acc_dict).getD []))])
    ∧ (List.lookup e ctx.acc_dict = none →
        (List.lookup (to_katakana e) ctx.acc_dict).isSome = true →
        ctx.kana_lookups = true →
        get_pronunciations ctx expr san rec =
          odUpdate [] (get_pronunciations ctx (to_katakana e) false false)) := by
  constructor
  · intro hsome
    cases hlk : List.lookup e ctx.acc_dict with
    | none => rw [hlk] at hsome; simp at hsome
    | some entries =>
      rw [get_pronunciations_eq_body]
      rw [gpBody_exact ctx _ expr san rec e r entries hpr hne hlk]
      rfl
  · intro hnone hk hkl
    rw [get_pronunciations_eq_body]
    rw [gpBody_kana ctx _ expr san rec e r hpr hne hnone hk hkl]
    have h34 : gpFuel ctx 3 (to_katakana e) false false =
        gpFuel ctx 4 (to_katakana e) false false := by
      have h := gpFuel_norec ctx (to_katakana e) 1 2
      norm_num at h
      exact h
    rw [h34]
    rfl

/-- Claim C4: when the input carries an explicit reading that survives the
discard heuristic, every entry the resolution reports under the processed
expression itself has a katakana-normalized reading equal to the
katakana-normalized explicit reading. -/
theorem c4_explicit_reading_respected (ctx : Ctx) (expr : Str) (san rec : Bool)
    (e r : Str) (ent : FormattedEntry)
    (hpr : gpProcess ctx expr san = (e, r)) (hr : r ≠ [])
    (hent : ent ∈ (List.lookup e (get_pronunciations ctx expr san rec)).getD []) :
    to_katakana ent.katakana_reading = to_katakana r := by
  rw [get_pronunciations_eq_body] at hent
  by_cases hbl : e = [] ∨ ctx.pitch_blocklisted e = true
  · rw [gpBody_blocked ctx _ expr san rec e r hpr hbl] at hent
    simp [List.lookup] at hent
  · cases hlk : List.lookup e ctx.acc_dict with
    | some entries =>
      rw [gpBody_exact ctx _ expr san rec e r entries hpr hbl hlk] at hent
      rw [List.lookup_cons] at hent
      rw [show (e == e) = true from beq_self_eq_true e] at hent
      exact exactFilter_mem r entries ent (by simpa using hent) hr
    | none =>
      exfalso
      have hsome : (List.lookup e (gpBody ctx (gpFuel ctx 3) expr san rec)).isSome = true := by
        cases hq : List.lookup e (gpBody ctx (gpFuel ctx 3) expr san rec) with
        | none => rw [hq] at hent; simp at hent
        | some v => simp
      have hkey := gpBody_keys ctx _ expr san rec e
        (fun s r' hs => gpFuel_keys ctx e 3 s false r' hs) hsome
      rw [hlk] at hkey
      simp at hkey

/-- Claim C7: an explicit bracketed reading that is purely numeric or
contains the configured reading separator is discarded, and the resolution
behaves exactly as the plain lookup of the bare expression. -/
theorem c7_malformed_reading_discarded (ctx : Ctx) (expr : Str) (san rec : Bool)
    (e r : Str)
    (hwr : word_reading (if san then ctx.stripHtml expr else expr) = (e, r))
    (hr : r ≠ [])
    (hdisc : pyIsNumeric r = true ∨ ctx.reading_separator <:+: r) :
    get_pronunciations ctx expr san rec = get_pronunciations ctx e false rec := by
  have heB : '[' ∉ e := by
    have h := word_reading_bfree (if san then ctx.stripHtml expr else expr)
    rw [hwr] at h
    exact h
  have hpr1 : gpProcess ctx expr san = (e, []) := by
    simp only [gpProcess]
    rw [hwr]
    dsimp only
    rw [if_pos ⟨hr, hdisc⟩]
  have hpr2 : gpProcess ctx e false = (e, []) := gpProcess_of_bfree ctx e heB
  rw [get_pronunciations_eq_body, get_pronunciations_eq_body]
  unfold gpBody
  rw [hpr1, hpr2]

/-- Claim C8: when the expression is empty after sanitizing and reading
splitting, or is blocklisted, the resolution returns the empty mapping at
once: the result is empty for every accent dictionary and every
morphological analyzer, so neither is consulted. -/
theorem c8_blocklist_shortcircuit (ctx : Ctx) (d' : AccentDict)
    (m' : Str → List ParsedToken) (expr : Str) (san rec : Bool) (e r : Str)
    (hpr : gpProcess ctx expr san = (e, r))
    (hbl : e = [] ∨ ctx.pitch_blocklisted e = true) :
    get_pronunciations { ctx with acc_dict := d', mecab := m' } expr san rec = [] := by
  rw [get_pronunciations_eq_body]
  refine gpBody_blocked _ _ expr san rec e r ?_ hbl
  exact hpr

/-! ### First-seen deduplication -/

theorem fromKeys_aux {α : Type} [DecidableEq α] :
    ∀ (l acc : List α),
      l.foldl (fun acc x => if x ∈ acc then acc else acc ++ [x]) acc =
        acc ++ firstSeen (l.filter (fun x => decide (x ∉ acc))) := by
  intro l
  induction l with
  | nil => intro acc; simp [firstSeen]
  | cons x xs ih =>
    intro acc
    rw [List.foldl_cons]
    by_cases hx : x ∈ acc
    · rw [if_pos hx, ih acc]
      have hfc : List.filter (fun y => decide (y ∉ acc)) (x :: xs) =
          List.filter (fun y => decide (y ∉ acc)) xs := by
        rw [List.filter_cons]
        simp [hx]
      rw [hfc]
    · rw [if_neg hx, ih (acc ++ [x])]
      have hfc : List.filter (fun y => decide (y ∉ acc)) (x :: xs) =
          x :: List.filter (fun y => decide (y ∉ acc)) xs := by
        rw [List.filter_cons]
        simp [hx]
      rw [hfc]
      rw [firstSeen]
      have hff : List.filter (fun y => decide (y ∉ acc ++ [x])) xs =
          List.filter (fun y => decide (y ≠ x))
            (List.filter (fun y => decide (y ∉ acc)) xs) := by
        rw [List.filter_filter]
        refine List.filter_congr (fun a _ => ?_)
        by_cases h1 : a = x
        · subst h1; simp [List.mem_append]
        · by_cases h2 : a ∈ acc <;> simp [h1, h2, List.mem_append]
      rw [hff]
      simp

theorem fromKeys_eq_firstSeen {α : Type} [DecidableEq α] (l : List α) :
    fromKeys l = firstSeen l := by
  unfold fromKeys
  rw [fromKeys_aux l []]
  have : List.filter (fun x => decide (x ∉ ([] : List α))) l = l := by
    refine Eq.trans (List.filter_congr (fun a _ => ?_)) (List.filter_true l)
    simp
  rw [this]
  simp

theorem mem_firstSeen {α : Type} [DecidableEq α] (l : List α) (y : α) :
    y ∈ firstSeen l ↔ y ∈ l := by
  induction l using firstSeen.induct with
  | case1 => simp [firstSeen]
  | case2 x xs ih =>
    rw [firstSeen]
    simp only [List.mem_cons]
    rw [ih]
    simp only [List.mem_filter]
    constructor
    · rintro (rfl | ⟨h, _⟩)
      · exact Or.inl rfl
      · exact Or.inr h
    · rintro (rfl | h)
      · exact Or.inl rfl
      · by_cases hyx : y = x
        · exact Or.inl hyx
        · exact Or.inr ⟨h, by simpa using hyx⟩

theorem firstSeen_sublist {α : Type} [DecidableEq α] (l : List α) :
    (firstSeen l).Sublist l := by
  induction l using firstSeen.induct with
  | case1 => simp [firstSeen]
  | case2 x xs ih =>
    rw [firstSeen]
    exact List.Sublist.cons₂ x (ih.trans (List.filter_sublist xs))

theorem count_firstSeen {α : Type} [BEq α] [LawfulBEq α] [DecidableEq α]
    (l : List α) (y : α) :
    List.count y (firstSeen l) = if y ∈ l then 1 else 0 := by
  induction l using firstSeen.induct with
  | case1 => simp [firstSeen]
  | case2 x xs ih =>
    rw [firstSeen, List.count_cons, ih]
    by_cases hyx : y = x
    · subst hyx
      have hnm : y ∉ List.filter (fun z => decide (z ≠ y)) xs := by
        intro hm
        rcases List.mem_filter.mp hm with ⟨_, hq⟩
        simp at hq
      rw [if_neg hnm]
      simp
    · have hmm : y ∈ List.filter (fun z => decide (z ≠ x)) xs ↔ y ∈ xs := by
        simp [List.mem_filter, hyx]
      have hb : (x == y) = false := beq_false_of_ne (Ne.symm hyx)
      by_cases hy : y ∈ xs
      · rw [if_pos (hmm.mpr hy)]
        simp [hb, List.mem_cons, hyx, hy]
      · rw [if_neg (fun hc => hy (hmm.mp hc))]
        simp [hb, List.mem_cons, hyx, hy]

theorem firstSeen_nodup {α : Type} [DecidableEq α] (l : List α) :
    (firstSeen l).Nodup := by
  induction l using firstSeen.induct with
  | case1 => simp [firstSeen]
  | case2 x xs ih =>
    rw [firstSeen]
    refine List.Nodup.cons ?_ ih
    intro hm
    rcases List.mem_filter.mp ((mem_firstSeen _ x).mp hm) with ⟨_, hq⟩
    simp at hq

theorem indexOf_cons_self' {α : Type} [BEq α] [LawfulBEq α] (a : α) (l : List α) :
    List.indexOf a (a :: l) = 0 := by
  simp [List.indexOf, List.findIdx_cons]

theorem indexOf_cons_ne' {α : Type} [BEq α] [LawfulBEq α] {a b : α} (l : List α)
    (h : b ≠ a) : List.indexOf a (b :: l) = List.indexOf a l + 1 := by
  simp [List.indexOf, List.findIdx_cons, beq_false_of_ne h]

theorem filter_indexOf_lt {α : Type} [BEq α] [LawfulBEq α] (p : α → Bool) :
    ∀ (l : List α) (x y : α), x ∈ l → y ∈ l → p x = true → p y = true →
      List.indexOf x l < List.indexOf y l →
      List.indexOf x (l.filter p) < List.indexOf y (l.filter p) := by
  intro l
  induction l with
  | nil => intro x y hx; simp at hx
  | cons h t ih =>
    intro x y hx hy hpx hpy hlt
    have hxy : x ≠ y := by
      intro he
      subst he
      exact lt_irrefl _ hlt
    by_cases hxh : x = h
    · subst hxh
      rw [List.filter_cons, if_pos hpx]
      rw [indexOf_cons_self']
      have hyt : y ∈ t := by
        rcases List.mem_cons.mp hy with h1 | h1
        · exact absurd h1.symm hxy
        · exact h1
      have hymem : y ∈ t.filter p := List.mem_filter.mpr ⟨hyt, hpy⟩
      rw [indexOf_cons_ne' _ hxy]
      exact Nat.succ_pos _
    · by_cases hyh : y = h
      · subst hyh
        rw [indexOf_cons_self'] at hlt
        exact absurd hlt (Nat.not_lt_zero _)
      · have hxt : x ∈ t := by
          rcases List.mem_cons.mp hx with h1 | h1
          · exact absurd h1 hxh
          · exact h1
        have hyt : y ∈ t := by
          rcases List.mem_cons.mp hy with h1 | h1
          · exact absurd h1 hyh
          · exact h1
        rw [indexOf_cons_ne' _ (Ne.symm hxh), indexOf_cons_ne' _ (Ne.symm hyh)] at hlt
        have hlt' : List.indexOf x t < List.indexOf y t := by omega
        have hrec := ih x y hxt hyt hpx hpy hlt'
        rw [List.filter_cons]
        by_cases hph : p h
        · rw [if_pos hph]
          rw [indexOf_cons_ne' _ (Ne.symm hxh), indexOf_cons_ne' _ (Ne.symm hyh)]
          omega
        · rw [if_neg hph]
          exact hrec

theorem firstSeen_indexOf_lt {α : Type} [BEq α] [LawfulBEq α] [DecidableEq α] :
    ∀ (l : List α) (x y : α), x ∈ l → y ∈ l →
      List.indexOf x l < List.indexOf y l →
      List.indexOf x (firstSeen l) < List.indexOf y (firstSeen l) := by
  intro l
  induction l using firstSeen.induct with
  | case1 => intro x y hx; simp at hx
  | case2 a xs ih =>
    intro x y hx hy hlt
    have hxy : x ≠ y := by
      intro he
      subst he
      exact lt_irrefl _ hlt
    rw [firstSeen]
    by_cases hya : y = a
    · subst hya
      rw [indexOf_cons_self'] at hlt
      exact absurd hlt (Nat.not_lt_zero _)
    · by_cases hxa : x = a
      · subst hxa
        rw [indexOf_cons_self']
        have hyt : y ∈ xs := by
          rcases List.mem_cons.mp hy with h1 | h1
          · exact absurd h1 hya
          · exact h1
        have hyf : y ∈ List.filter (fun z => decide (z ≠ x)) xs :=
          List.mem_filter.mpr ⟨hyt, by simpa using hya⟩
        have hymem : y ∈ firstSeen (List.filter (fun z => decide (z ≠ x)) xs) :=
          (mem_firstSeen _ y).mpr hyf
        rw [indexOf_cons_ne' _ hxy]
        exact Nat.succ_pos _
      · have hxt : x ∈ xs := by
          rcases List.mem_cons.mp hx with h1 | h1
          · exact absurd h1 hxa
          · exact h1
        have hyt : y ∈ xs := by
          rcases List.mem_cons.mp hy with h1 | h1
          · exact absurd h1 hya
          · exact h1
        rw [indexOf_cons_ne' _ (Ne.symm hxa), indexOf_cons_ne' _ (Ne.symm hya)] at hlt
        have hlt' : List.indexOf x xs < List.indexOf y xs := by omega
        have hxf : x ∈ List.filter (fun z => decide (z ≠ a)) xs :=
          List.mem_filter.mpr ⟨hxt, by simpa using hxa⟩
        have hyf : y ∈ List.filter (fun z => decide (z ≠ a)) xs :=
          List.mem_filter.mpr ⟨hyt, by simpa using hya⟩
        have hflt := filter_indexOf_lt (fun z => decide (z ≠ a)) xs x y hxt hyt
          (by simpa using hxa) (by simpa using hya) hlt'
        have hrec := ih x y hxf hyf hflt
        rw [indexOf_cons_ne' _ (Ne.symm hxa), indexOf_cons_ne' _ (Ne.symm hya)]
        omega

/-! ### The per-word formatting loop -/

theorem get_notation_total (ctx : Ctx) (mode : TaskMode)
    (hmode : mode ≠ TaskMode.furigana) (entry : FormattedEntry) :
    ∃ s, get_notation ctx entry mode = some s := by
  cases mode with
  | html => exact ⟨_, rfl⟩
  | number => exact ⟨_, rfl⟩
  | furigana => exact absurd rfl hmode

theorem mapM_get_notation_total (ctx : Ctx) (mode : TaskMode)
    (hmode : mode ≠ TaskMode.furigana) (entries : List FormattedEntry) :
    ∃ ns, entries.mapM (fun e => get_notation ctx e mode) = some ns := by
  induction entries with
  | nil => exact ⟨[], rfl⟩
  | cons a rest ih =>
    obtain ⟨s, hs⟩ := get_notation_total ctx mode hmode a
    obtain ⟨ns, hns⟩ := ih
    refine ⟨s :: ns, ?_⟩
    rw [List.mapM_cons, hs, hns]
    rfl

theorem formatWordMap_nil (ctx : Ctx) (mode : TaskMode) (maxRes : Nat) (sepS : Str)
    (od : List (Str × Str)) : formatWordMap ctx mode maxRes sepS [] od = some od := rfl

theorem formatWordMap_cons (ctx : Ctx) (mode : TaskMode) (maxRes : Nat) (sepS : Str)
    (w : Str) (entries : List FormattedEntry) (rest : AccentDict)
    (od : List (Str × Str)) :
    formatWordMap ctx mode maxRes sepS ((w, entries) :: rest) od =
      match entries.mapM (fun e => get_notation ctx e mode) with
      | none => none
      | some ns =>
        formatWordMap ctx mode maxRes sepS rest
          (if maxRes = 0 ∨ (fromKeys ns).length ≤ maxRes then
            odSet od w (joinSep sepS (fromKeys ns))
          else od) := rfl

theorem formatWordMap_total (ctx : Ctx) (mode : TaskMode) (maxRes : Nat) (sepS : Str)
    (hmode : mode ≠ TaskMode.furigana) :
    ∀ (pron : AccentDict) (od : List (Str × Str)),
      ∃ m, formatWordMap ctx mode maxRes sepS pron od = some m := by
  intro pron
  induction pron with
  | nil => intro od; exact ⟨od, rfl⟩
  | cons wv rest ih =>
    intro od
    obtain ⟨w, entries⟩ := wv
    obtain ⟨ns, hns⟩ := mapM_get_notation_total ctx mode hmode entries
    rw [formatWordMap_cons, hns]
    exact ih _

theorem formatWordMap_skip (ctx : Ctx) (mode : TaskMode) (maxRes : Nat) (sepS : Str)
    (key : Str) :
    ∀ (pron : AccentDict) (od : List (Str × Str)) (m : List (Str × Str)),
      key ∉ pron.map Prod.fst →
      formatWordMap ctx mode maxRes sepS pron od = some m →
      List.lookup key m = List.lookup key od := by
  intro pron
  induction pron with
  | nil =>
    intro od m _ hm
    rw [formatWordMap_nil] at hm
    injection hm with hm
    rw [hm]
  | cons wv rest ih =>
    intro od m hk hm
    obtain ⟨w, entries⟩ := wv
    have hkw : key ≠ w := by
      intro he
      exact hk (by simp [he])
    have hkr : key ∉ rest.map Prod.fst := by
      intro he
      exact hk (by simp [he])
    rw [formatWordMap_cons] at hm
    cases hns : entries.mapM (fun e => get_notation ctx e mode) with
    | none => rw [hns] at hm; cases hm
    | some ns =>
      rw [hns] at hm
      rw [ih _ m hkr hm]
      by_cases hc : maxRes = 0 ∨ (fromKeys ns).length ≤ maxRes
      · rw [if_pos hc]
        exact lookup_odSet_ne od w key _ hkw
      · rw [if_neg hc]

theorem formatWordMap_lookup (ctx : Ctx) (mode : TaskMode) (maxRes : Nat) (sepS : Str)
    (w : Str) (entries : List FormattedEntry) (ns : List Str) :
    ∀ (pron : AccentDict) (od : List (Str × Str)) (m : List (Str × Str)),
      (w, entries) ∈ pron →
      (pron.map Prod.fst).Nodup →
      List.lookup w od = none →
      entries.mapM (fun e => get_notation ctx e mode) = some ns →
      formatWordMap ctx mode maxRes sepS pron od = some m →
      List.lookup w m =
        (if maxRes = 0 ∨ (fromKeys ns).length ≤ maxRes then
          some (joinSep sepS (fromKeys ns))
        else none) := by
  intro pron
  induction pron with
  | nil => intro od m hw; simp at hw
  | cons wv rest ih =>
    intro od m hw hnd hod hns hm
    obtain ⟨w', entries'⟩ := wv
    rw [formatWordMap_cons] at hm
    have hnd1 : w' ∉ rest.map Prod.fst ∧ (rest.map Prod.fst).Nodup := by
      rw [List.map_cons] at hnd
      exact List.nodup_cons.mp hnd
    by_cases hww : w' = w
    · subst hww
      have hent : entries' = entries := by
        rcases List.mem_cons.mp hw with h1 | h1
        · injection h1 with _ h1b
          exact h1b.symm
        · exact absurd (List.mem_map.mpr ⟨(w', entries), h1, rfl⟩) hnd1.1
      subst hent
      rw [hns] at hm
      rw [formatWordMap_skip ctx mode maxRes sepS w' rest _ m hnd1.1 hm]
      by_cases hc : maxRes = 0 ∨ (fromKeys ns).length ≤ maxRes
      · rw [if_pos hc, if_pos hc]
        exact lookup_odSet_self od w' (joinSep sepS (fromKeys ns))
      · rw [if_neg hc, if_neg hc]
        exact hod
    · have hw' : (w, entries) ∈ rest := by
        rcases List.mem_cons.mp hw with h1 | h1
        · exfalso
          injection h1 with h1a _
          exact hww h1a.symm
        · exact h1
      cases hns' : entries'.mapM (fun e => get_notation ctx e mode) with
      | none => rw [hns'] at hm; cases hm
      | some ns' =>
        rw [hns'] at hm
        have hnd' : (rest.map Prod.fst).Nodup := hnd1.2
        have hod' : List.lookup w (if maxRes = 0 ∨ (fromKeys ns').length ≤ maxRes then
            odSet od w' (joinSep sepS (fromKeys ns')) else od) = none := by
          by_cases hc : maxRes = 0 ∨ (fromKeys ns').length ≤ maxRes
          · rw [if_pos hc]
            rw [lookup_odSet_ne od w' w _ (fun he => hww he.symm)]
            exact hod
          · rw [if_neg hc]
            exact hod
        exact ih _ m hw' hnd' hod' hns hm

/-- Claim C5: for a nonzero per-word limit and a working mode, a word of the
accent dictionary contributes either the full separator-joined list of its
deduplicated notations (when their number is within the limit) or nothing at
all (when it exceeds the limit); other words are unaffected, and the final
output joins exactly the surviving contributions. -/
theorem c5_all_or_nothing (ctx : Ctx) (pron : AccentDict) (mode : TaskMode)
    (maxRes : Nat) (sepS sepM : Str) (w : Str) (entries : List FormattedEntry)
    (hmax : maxRes ≠ 0)
    (hnd : (pron.map Prod.fst).Nodup)
    (hmode : mode ≠ TaskMode.furigana)
    (hw : (w, entries) ∈ pron) :
    ∃ m ns,
      formatWordMap ctx mode maxRes sepS pron [] = some m
      ∧ entries.mapM (fun e => get_notation ctx e mode) = some ns
      ∧ List.lookup w m =
          (if (fromKeys ns).length ≤ maxRes
           then some (joinSep sepS (fromKeys ns)) else none)
      ∧ format_pronunciations ctx pron mode maxRes sepS sepM [] =
          some (joinSep sepM (m.map Prod.snd)) := by
  obtain ⟨m, hm⟩ := formatWordMap_total ctx mode maxRes sepS hmode pron []
  obtain ⟨ns, hns⟩ := mapM_get_notation_total ctx mode hmode entries
  refine ⟨m, ns, hm, hns, ?_, ?_⟩
  · have h := formatWordMap_lookup ctx mode maxRes sepS w entries ns pron [] m hw hnd
      rfl hns hm
    rw [h]
    by_cases hc : (fromKeys ns).length ≤ maxRes
    · rw [if_pos (Or.inr hc), if_pos hc]
    · rw [if_neg ?_, if_neg hc]
      rintro (h0 | hle)
      · exact hmax h0
      · exact hc hle
  · unfold format_pronunciations
    rw [hm]
    rfl

/-- Claim C6: per word, the formatter deduplicates the rendered notations:
the word contributes the separator-joined first-seen deduplication of its
notations, which keeps each distinct notation exactly once and preserves
the relative order of first occurrences. -/
theorem c6_dedup_per_word (ctx : Ctx) (pron : AccentDict) (mode : TaskMode)
    (maxRes : Nat) (sepS : Str) (w : Str) (entries : List FormattedEntry)
    (ns : List Str) (x y z : Str)
    (hnd : (pron.map Prod.fst).Nodup)
    (hmode : mode ≠ TaskMode.furigana)
    (hw : (w, entries) ∈ pron)
    (hns : entries.mapM (fun e => get_notation ctx e mode) = some ns)
    (hkeep : maxRes = 0 ∨ (fromKeys ns).length ≤ maxRes)
    (hx : x ∈ ns) (hy : y ∈ ns)
    (hlt : List.indexOf x ns < List.indexOf y ns) :
    ∃ m,
      formatWordMap ctx mode maxRes sepS pron [] = some m
      ∧ List.lookup w m = some (joinSep sepS (fromKeys ns))
      ∧ fromKeys ns = firstSeen ns
      ∧ (fromKeys ns).Nodup
      ∧ List.count z (fromKeys ns) = (if z ∈ ns then 1 else 0)
      ∧ List.indexOf x (fromKeys ns) < List.indexOf y (fromKeys ns) := by
  obtain ⟨m, hm⟩ := formatWordMap_total ctx mode maxRes sepS hmode pron []
  refine ⟨m, hm, ?_, fromKeys_eq_firstSeen ns, ?_, ?_, ?_⟩
  · have h := formatWordMap_lookup ctx mode maxRes sepS w entries ns pron [] m hw hnd
      rfl hns hm
    rw [h, if_pos hkeep]
  · rw [fromKeys_eq_firstSeen]
    exact firstSeen_nodup ns
  · rw [fromKeys_eq_firstSeen]
    exact count_firstSeen ns z
  · rw [fromKeys_eq_firstSeen]
    exact firstSeen_indexOf_lt ns x y hx hy hlt

/-- Claim C9: get_notation returns the inline-styled html notation in html
mode and the pitch number in number mode, and signals an error (modelled by
none, never an empty string) for any other mode. -/
theorem c9_get_notation_modes (ctx : Ctx) (entry : FormattedEntry) (mode : TaskMode) :
    get_notation ctx entry TaskMode.html = some (update_html ctx entry.html_pattern)
    ∧ get_notation ctx entry TaskMode.number = some entry.pitch_number
    ∧ (mode ≠ TaskMode.html → mode ≠ TaskMode.number → get_notation ctx entry mode = none) := by
  refine ⟨rfl, rfl, ?_⟩
  cases mode with
  | html => intro h _; exact absurd rfl h
  | number => intro _ h; exact absurd rfl h
  | furigana => intro _ _; rfl

/-! ### The furigana composer -/

/-- Claim C2 (amended): for a surface that is neither pure kana nor
blocklisted, format_furigana returns the surface unchanged when no
candidate was collected, the merged annotation when between two and the
configured maximum candidates remain, and the first candidate otherwise:
both for exactly one candidate and when the maximum is exceeded (in the
latter case the first annotated candidate, not the plain surface, is
returned). -/
theorem c2_format_furigana_branches (ctx : Ctx) (out : ParsedToken)
    (hk : is_kana_word out.word = false)
    (hb : ctx.furigana_blocklisted out.word = false) :
    (iter_furigana ctx out = [] → format_furigana ctx out = out.word)
    ∧ (1 < (iter_furigana ctx out).length →
        (iter_furigana ctx out).length ≤ ctx.maximum_results →
        format_furigana ctx out = ctx.mingle (iter_furigana ctx out))
    ∧ ((iter_furigana ctx out).length = 1 →
        format_furigana ctx out = (iter_furigana ctx out).headI)
    ∧ (ctx.maximum_results < (iter_furigana ctx out).length →
        format_furigana ctx out = (iter_furigana ctx out).headI) := by
  have hcond : ¬(is_kana_word out.word = true ∨ ctx.furigana_blocklisted out.word = true) := by
    simp [hk, hb]
  refine ⟨?_, ?_, ?_, ?_⟩
  · intro h
    unfold format_furigana
    rw [if_neg hcond, h]
  · intro h1 h2
    cases hit : iter_furigana ctx out with
    | nil => rw [hit] at h1; simp at h1
    | cons r rs =>
      rw [hit] at h1 h2
      unfold format_furigana
      rw [if_neg hcond, hit]
      show (if 1 < (r :: rs).length ∧ (r :: rs).length ≤ ctx.maximum_results then
          ctx.mingle (r :: rs) else r) = ctx.mingle (r :: rs)
      rw [if_pos ⟨h1, h2⟩]
  · intro h1
    cases hit : iter_furigana ctx out with
    | nil => rw [hit] at h1; simp at h1
    | cons r rs =>
      rw [hit] at h1
      unfold format_furigana
      rw [if_neg hcond, hit]
      show (if 1 < (r :: rs).length ∧ (r :: rs).length ≤ ctx.maximum_results then
          ctx.mingle (r :: rs) else r) = (r :: rs).headI
      rw [if_neg (by rintro ⟨hgt, _⟩; omega)]
      rfl
  · intro h1
    cases hit : iter_furigana ctx out with
    | nil => rw [hit] at h1; simp at h1
    | cons r rs =>
      rw [hit] at h1
      unfold format_furigana
      rw [if_neg hcond, hit]
      show (if 1 < (r :: rs).length ∧ (r :: rs).length ≤ ctx.maximum_results then
          ctx.mingle (r :: rs) else r) = (r :: rs).headI
      rw [if_neg (by rintro ⟨_, hle⟩; omega)]
      rfl

/-- The concrete furigana setting used to test format_furigana: a dictionary
entry for the headword whose reading differs from the reading reported by
the analyzer, and a merge limit of one. -/
def c2Entry : FormattedEntry := ⟨['Q'], ['0'], ['n']⟩

/-- A concrete context with two distinct candidate readings for the token
below and maximum_results one. -/
def c2Ctx : Ctx := {
  acc_dict := [(['Z'], [c2Entry])]
  stripHtml := id
  mecab := fun _ => []
  tokenize := fun _ => []
  isSep := fun _ => false
  pitch_blocklisted := fun _ => false
  furigana_blocklisted := fun _ => false
  can_lookup_in_db := fun _ => true
  kana_lookups := false
  use_mecab := false
  reading_separator := [',']
  maximum_results := 1
  prefer_long_vowel_mark := false
  mingle := joinAll
  adjust_reading := fun _ _ r => r
  unify_repr := id
  styles := []
  output_hiragana := false }

/-- A parsed token whose analyzer reading and dictionary reading differ. -/
def c2Tok : ParsedToken := ⟨['Z'], ['R'], ['Z']⟩

theorem c2_counterexample :
    is_kana_word c2Tok.word = false
    ∧ c2Ctx.furigana_blocklisted c2Tok.word = false
    ∧ (iter_furigana c2Ctx c2Tok).length = 2
    ∧ c2Ctx.maximum_results = 1
    ∧ format_furigana c2Ctx c2Tok = ['Z', '(', 'R', ')']
    ∧ format_furigana c2Ctx c2Tok ≠ c2Tok.word := by
  decide

theorem c2_witness :
    (iter_furigana c2Ctx c2Tok = [] → format_furigana c2Ctx c2Tok = c2Tok.word)
    ∧ (1 < (iter_furigana c2Ctx c2Tok).length →
        (iter_furigana c2Ctx c2Tok).length ≤ c2Ctx.maximum_results →
        format_furigana c2Ctx c2Tok = c2Ctx.mingle (iter_furigana c2Ctx c2Tok))
    ∧ ((iter_furigana c2Ctx c2Tok).length = 1 →
        format_furigana c2Ctx c2Tok = (iter_furigana c2Ctx c2Tok).headI)
    ∧ (c2Ctx.maximum_results < (iter_furigana c2Ctx c2Tok).length →
        format_furigana c2Ctx c2Tok = (iter_furigana c2Ctx c2Tok).headI) :=
  c2_format_furigana_branches c2Ctx c2Tok (by decide) (by decide)

/-! ### generate_furigana -/

/-- Claim C10 (amended): generate_furigana equals the concatenation, in
original order, of the per-span renderings (literal spans rendered
verbatim), with the concatenation stripped of leading and trailing
whitespace; a literal span is rendered as itself. -/
theorem c10_generate_furigana_shape (ctx : Ctx) (src s : Str) :
    generate_furigana ctx src =
      pyStrip (joinAll ((ctx.tokenize src).map (renderSpan ctx)))
    ∧ renderSpan ctx (Span.literal s) = s := by
  refine ⟨?_, rfl⟩
  unfold generate_furigana
  have h : ∀ (toks : List Span) (init : List Str),
      joinAll (toks.foldl
        (fun ss tok =>
          match tok with
          | Span.parseable t =>
            match try_lookup_full_text ctx t with
            | some f =>
              if f ≠ [] then ss ++ [f]
              else ss ++ (ctx.mecab t).map (format_furigana ctx)
            | none => ss ++ (ctx.mecab t).map (format_furigana ctx)
          | Span.literal s => ss ++ [s]) init) =
      joinAll init ++ joinAll (toks.map (renderSpan ctx)) := by
    intro toks
    induction toks with
    | nil => intro init; simp [joinAll]
    | cons tok rest ih =>
      intro init
      rw [List.foldl_cons, List.map_cons]
      rw [ih]
      have hstep : ∀ pieces : List Str,
          joinAll (init ++ pieces) = joinAll init ++ joinAll pieces := by
        intro pieces
        simp [joinAll]
      have hjoin : joinAll (renderSpan ctx tok :: rest.map (renderSpan ctx)) =
          renderSpan ctx tok ++ joinAll (rest.map (renderSpan ctx)) := by
        simp [joinAll]
      rw [hjoin]
      cases tok with
      | literal s =>
        dsimp only
        rw [hstep [s]]
        rw [show renderSpan ctx (Span.literal s) = s from rfl]
        simp [joinAll, List.append_assoc]
      | parseable t =>
        dsimp only
        cases htl : try_lookup_full_text ctx t with
        | some f =>
          dsimp only
          by_cases hf : f ≠ []
          · rw [if_pos hf, hstep [f]]
            rw [show renderSpan ctx (Span.parseable t) = f from by
              unfold renderSpan; dsimp only; rw [htl]; dsimp only; rw [if_pos hf]]
            simp [joinAll, List.append_assoc]
          · rw [if_neg hf, hstep ((ctx.mecab t).map (format_furigana ctx))]
            rw [show renderSpan ctx (Span.parseable t) =
                joinAll ((ctx.mecab t).map (format_furigana ctx)) from by
              unfold renderSpan; dsimp only; rw [htl]; dsimp only; rw [if_neg hf]]
            simp [joinAll, List.append_assoc]
        | none =>
          dsimp only
          rw [hstep ((ctx.mecab t).map (format_furigana ctx))]
          rw [show renderSpan ctx (Span.parseable t) =
              joinAll ((ctx.mecab t).map (format_furigana ctx)) from by
            unfold renderSpan; dsimp only; rw [htl]]
          simp [joinAll, List.append_assoc]
  rw [h (ctx.tokenize src) []]
  simp [joinAll]

/-- A context whose tokenizer reports one literal span that begins with a
space; everything else is inert. -/
def c10Ctx : Ctx := {
  acc_dict := []
  stripHtml := id
  mecab := fun _ => []
  tokenize := fun _ => [Span.literal [' ', 'x']]
  isSep := fun _ => false
  pitch_blocklisted := fun _ => false
  furigana_blocklisted := fun _ => false
  can_lookup_in_db := fun _ => false
  kana_lookups := false
  use_mecab := false
  reading_separator := [',']
  maximum_results := 1
  prefer_long_vowel_mark := false
  mingle := joinAll
  adjust_reading := fun _ _ r => r
  unify_repr := id
  styles := []
  output_hiragana := false }

theorem c10_counterexample :
    c10Ctx.tokenize [] = [Span.literal [' ', 'x']]
    ∧ generate_furigana c10Ctx [] = ['x']
    ∧ generate_furigana c10Ctx [] ≠
        joinAll ((c10Ctx.tokenize []).map (renderSpan c10Ctx)) := by
  decide

/-! ### Concrete witnesses -/

/-- An inert concrete context used to instantiate the claim theorems:
no blocklists, no analyzer output, comma as the separator class. -/
def baseCtx : Ctx := {
  acc_dict := []
  stripHtml := id
  mecab := fun _ => []
  tokenize := fun _ => []
  isSep := fun c => decide (c = ',')
  pitch_blocklisted := fun _ => false
  furigana_blocklisted := fun _ => false
  can_lookup_in_db := fun _ => true
  kana_lookups := true
  use_mecab := true
  reading_separator := [',']
  maximum_results := 4
  prefer_long_vowel_mark := false
  mingle := joinAll
  adjust_reading := fun _ _ r => r
  unify_repr := id
  styles := []
  output_hiragana := false }

theorem c1_witness :
    gpFuel baseCtx 5 ['a'] true true = get_pronunciations baseCtx ['a'] true true
    ∧ gpFuel baseCtx 2 ['a'] true false =
        gpFuel { baseCtx with mecab := fun _ => [⟨['a'], [], ['a']⟩] } 2 ['a'] true false
    ∧ (['a'] : Str).length < (['a', ',', 'b'] : Str).length :=
  c1_resolve_terminates baseCtx (fun _ => [⟨['a'], [], ['a']⟩]) ['a'] ['a', ',', 'b'] ['a']
    true true 5 2 (by decide) (by decide) (by decide)

/-- One concrete dictionary entry whose reading is the katakana form used in
the exact-match witnesses. -/
def wEntry : FormattedEntry := ⟨['c', 'd'], ['1'], ['n']⟩

theorem c3_witness :
    ((List.lookup ['a'] ({ baseCtx with acc_dict := [(['a'], [wEntry])] } : Ctx).acc_dict).isSome
        = true →
      get_pronunciations { baseCtx with acc_dict := [(['a'], [wEntry])] } ['a'] false true =
        [(['a'], exactFilter []
          ((List.lookup ['a']
            ({ baseCtx with acc_dict := [(['a'], [wEntry])] } : Ctx).acc_dict).getD []))])
    ∧ (List.lookup ['a'] ({ baseCtx with acc_dict := [(['a'], [wEntry])] } : Ctx).acc_dict = none →
        (List.lookup (to_katakana ['a'])
          ({ baseCtx with acc_dict := [(['a'], [wEntry])] } : Ctx).acc_dict).isSome = true →
        ({ baseCtx with acc_dict := [(['a'], [wEntry])] } : Ctx).kana_lookups = true →
        get_pronunciations { baseCtx with acc_dict := [(['a'], [wEntry])] } ['a'] false true =
          odUpdate []
            (get_pronunciations { baseCtx with acc_dict := [(['a'], [wEntry])] }
              (to_katakana ['a']) false false)) :=
  c3_fallback_priority { baseCtx with acc_dict := [(['a'], [wEntry])] } ['a'] false true
    ['a'] [] (by decide) (by decide)

theorem c4_witness :
    to_katakana wEntry.katakana_reading = to_katakana ['c', 'd'] :=
  c4_explicit_reading_respected { baseCtx with acc_dict := [(['a', 'b'], [wEntry])] }
    ['a', 'b', '[', 'c', 'd', ']'] false true ['a', 'b'] ['c', 'd'] wEntry
    (by decide) (by decide) (by decide)

/-- Two entries rendering to distinct pitch numbers, with a duplicate, used
by the formatter witnesses. -/
def wE1 : FormattedEntry := ⟨['k'], ['1'], ['m']⟩

/-- The second distinct entry of the formatter witnesses. -/
def wE2 : FormattedEntry := ⟨['k'], ['2'], ['m']⟩

theorem c5_witness :
    ∃ m ns,
      formatWordMap baseCtx TaskMode.number 1 [';'] [(['w'], [wE1, wE2, wE1])] [] = some m
      ∧ [wE1, wE2, wE1].mapM (fun e => get_notation baseCtx e TaskMode.number) = some ns
      ∧ List.lookup ['w'] m =
          (if (fromKeys ns).length ≤ 1
           then some (joinSep [';'] (fromKeys ns)) else none)
      ∧ format_pronunciations baseCtx [(['w'], [wE1, wE2, wE1])] TaskMode.number 1 [';'] [','] [] =
          some (joinSep [','] (m.map Prod.snd)) :=
  c5_all_or_nothing baseCtx [(['w'], [wE1, wE2, wE1])] TaskMode.number 1 [';'] [',']
    ['w'] [wE1, wE2, wE1] (by decide) (by decide) (by decide) (by decide)

theorem c6_witness :
    ∃ m,
      formatWordMap baseCtx TaskMode.number 0 [';'] [(['w'], [wE1, wE2, wE1])] [] = some m
      ∧ List.lookup ['w'] m = some (joinSep [';'] (fromKeys [['1'], ['2'], ['1']]))
      ∧ fromKeys [['1'], ['2'], ['1']] = firstSeen [['1'], ['2'], ['1']]
      ∧ (fromKeys [['1'], ['2'], ['1']]).Nodup
      ∧ List.count ['1'] (fromKeys [['1'], ['2'], ['1']]) =
          (if (['1'] : Str) ∈ [['1'], ['2'], ['1']] then 1 else 0)
      ∧ List.indexOf ['1'] (fromKeys [['1'], ['2'], ['1']]) <
          List.indexOf ['2'] (fromKeys [['1'], ['2'], ['1']]) :=
  c6_dedup_per_word baseCtx [(['w'], [wE1, wE2, wE1])] TaskMode.number 0 [';'] ['w']
    [wE1, wE2, wE1] [['1'], ['2'], ['1']] ['1'] ['2'] ['1']
    (by decide) (by decide) (by decide) (by decide) (Or.inl rfl)
    (by decide) (by decide) (by decide)

theorem c7_witness :
    get_pronunciations baseCtx ['t', '[', '1', ']'] false true =
      get_pronunciations baseCtx ['t'] false true :=
  c7_malformed_reading_discarded baseCtx ['t', '[', '1', ']'] false true ['t'] ['1']
    (by decide) (by decide) (by decide)

theorem c8_witness :
    get_pronunciations { baseCtx with acc_dict := [(['a'], [wEntry])], mecab := fun _ => [] }
      ['[', 'a', ']'] false true = [] :=
  c8_blocklist_shortcircuit baseCtx [(['a'], [wEntry])] (fun _ => []) ['[', 'a', ']']
    false true [] ['a'] (by decide) (by decide)
